import Mathlib

/-!
Verification of `pufferlib/policy_pool.py`: a shallow embedding of the
`Policy` record, the `PolicyDatabase` store, and the `PolicyPool`
orchestrator, with theorems checking the natural-language specification
against the code.

Conventions of the embedding:
* `torch` models are values: an architecture tag (`str(type(model))`)
  plus a parameter state (`state_dict`) abstracted as a list of integers;
  `copy.deepcopy` is a value copy, `.cuda()` (device placement) is the
  identity on the value.
* Python floats (`mu`, `sigma`, scores) are rationals.
* Python dicts are association lists in insertion order; `defaultdict(list)`
  reads absent keys as `[]`.
* A raised exception is `Except.error` carrying the message together with
  the externally visible state at raise time.
* `np.random.choice(xs, k, replace=True)` is parameterized by the list of
  chosen indices `picks`.
-/

set_option autoImplicit false

namespace PufferPool

/-- A live model value: architecture tag plus parameter state. -/
structure Model where
  arch : String
  params : List Int
deriving DecidableEq, Repr, Inhabited

/-- One entry of the Rating Engine's `ratings` mapping: skill mean and
uncertainty. -/
structure Rating where
  mu : ℚ
  sigma : ℚ
deriving DecidableEq, Repr, Inhabited

/-- One row of the `policies` table (class `Policy`): the database columns
plus the in-memory `model` attribute bound by `__init__`, `load_model` and
`save_model`. The JSON column `additional_data = {'tenured': tenured}` is
represented by its only field, the `tenured` flag. -/
structure PolicyRecord where
  model_path : String
  model_class : String
  name : String
  mu : ℚ
  sigma : ℚ
  episodes : Nat
  tenured : Bool
  model : Model
deriving DecidableEq, Repr, Inhabited

/-- The snapshot filesystem written by `torch.save` and read by
`torch.load`: paths mapped to saved parameter states. -/
abbrev FileSys := List (String × List Int)

/-- `torch.load(path)`. -/
def fsRead (fs : FileSys) (p : String) : Option (List Int) :=
  (fs.find? (fun e => e.1 == p)).map (fun e => e.2)

/-- `torch.save(v, path)`: overwrite the file at `p`. -/
def fsWrite (fs : FileSys) (p : String) (v : List Int) : FileSys :=
  (p, v) :: fs.eraseP (fun e => e.1 == p)

/-- `PolicyDatabase` state: the rows of the `policies` table in insertion
order. -/
abbrev Database := List PolicyRecord

/-- `PolicyDatabase.query_policy_by_name`: first row with the given name
(`None` when absent). -/
def query_policy_by_name (db : Database) (name : String) : Option PolicyRecord :=
  db.find? (fun p => p.name == name)

/-- `PolicyDatabase.add_policy`: insert a new row. -/
def db_add_policy (db : Database) (p : PolicyRecord) : Database :=
  db ++ [p]

/-- `PolicyDatabase.delete_policy`: delete the given row. Rows are keyed by
the unique `name` column, so deleting the queried object deletes the (first)
row carrying its name. -/
def delete_policy (db : Database) (p : PolicyRecord) : Database :=
  db.eraseP (fun q => q.name == p.name)

/-- `PolicyDatabase.query_all_policies`. -/
def query_all_policies (db : Database) : List PolicyRecord := db

/-- `PolicyDatabase.query_tenured_policies`. -/
def query_tenured_policies (db : Database) : List PolicyRecord :=
  db.filter (fun p => p.tenured)

/-- `PolicyDatabase.query_untenured_policies`. -/
def query_untenured_policies (db : Database) : List PolicyRecord :=
  db.filter (fun p => !p.tenured)

/-- Read the Rating Engine's `ratings` mapping at a name. -/
def ratingsGet (rs : List (String × Rating)) (n : String) : Option Rating :=
  (rs.find? (fun e => e.1 == n)).map (fun e => e.2)

/-- Write the Rating Engine's `ratings` mapping at a name (dict update:
overwrite in place when present, append when fresh). -/
def ratingsSet (rs : List (String × Rating)) (n : String) (r : Rating) :
    List (String × Rating) :=
  if rs.any (fun e => e.1 == n) then
    rs.map (fun e => if e.1 == n then (e.1, r) else e)
  else rs ++ [(n, r)]

/-- Modelled from the spec: the Rating Engine (`OpenSkillRating`, whose
source `pufferlib/rating.py` is outside this snapshot) is a mapping from
policy name to a `Rating` plus the set of anchor names, which are fixed
reference points that never update. -/
structure Tournament where
  ratings : List (String × Rating)
  anchors : List String
deriving DecidableEq, Repr, Inhabited

/-- Modelled from the spec: `RatingEngine.addPolicy(name)` registers a
normal competitor; `PolicyPool.add_policy` then seeds its live mu/sigma
directly through the `ratings` mapping, so the net effect of lines 181-183
is setting the name's rating to the supplied values. -/
def tournament_add_policy (t : Tournament) (n : String) (mu sigma : ℚ) :
    Tournament :=
  { t with ratings := ratingsSet t.ratings n ⟨mu, sigma⟩ }

/-- Modelled from the spec: `RatingEngine.setAnchor(name)` registers the
name as a fixed reference point (seeded at the pool's `anchor_mu`) that
never updates. -/
def tournament_set_anchor (t : Tournament) (n : String) (anchor_mu sigma : ℚ) :
    Tournament :=
  { ratings := ratingsSet t.ratings n ⟨anchor_mu, sigma⟩,
    anchors := n :: t.anchors }

/-- Samples for one name in a batched `update` call. -/
def samplesFor (names : List String) (samples : List (List ℚ)) (n : String) :
    List ℚ :=
  (((names.zip samples).find? (fun q => q.1 == n)).map (fun q => q.2)).getD []

/-- Modelled from the spec: `RatingEngine.update(names, outcomeSamples)`
recomputes and stores new mu/sigma per given name in one batched call; the
Bayesian math itself is abstracted as `engine`. Anchors never update, and
names outside the call keep their ratings. -/
def tournament_update (engine : String → List ℚ → Rating) (t : Tournament)
    (names : List String) (samples : List (List ℚ)) : Tournament :=
  { t with ratings := t.ratings.map (fun e =>
      if e.1 ∈ names ∧ e.1 ∉ t.anchors then
        (e.1, engine e.1 (samplesFor names samples e.1))
      else e) }

/-- Read the score ledger (`defaultdict(list)`) at a name. -/
def scoresGet (sc : List (String × List ℚ)) (n : String) : List ℚ :=
  (((sc.find? (fun e => e.1 == n)).map (fun e => e.2))).getD []

/-- `self.scores[name].append(v)` on the `defaultdict(list)` ledger. -/
def scoresAppend (sc : List (String × List ℚ)) (n : String) (v : ℚ) :
    List (String × List ℚ) :=
  if sc.any (fun e => e.1 == n) then
    sc.map (fun e => if e.1 == n then (e.1, e.2 ++ [v]) else e)
  else sc ++ [(n, [v])]

/-- The construction-time sampling pattern (lines 115-116): slot index `i`
repeated `sample_weights[i]` times, in slot order. -/
def pattern (sample_weights : List Nat) : List Nat :=
  sample_weights.enum.flatMap (fun p => List.replicate p.2 p.1)

/-- The construction-time distribution loop (lines 119-122): batch index
`idx` is appended to sublist `pattern[idx % chunk_size]`. -/
def distribute (sample_weights : List Nat) (evaluation_batch_size : Nat) :
    List (List Nat) :=
  let chunk_size := sample_weights.sum
  let pat := pattern sample_weights
  (List.range evaluation_batch_size).foldl
    (fun acc idx =>
      let s := pat.getD (idx % chunk_size) 0
      acc.set s (acc.getD s [] ++ [idx]))
    (List.replicate sample_weights.length [])

/-- The mutable attributes of a `PolicyPool` instance together with the
external state it drives: the policy database and the snapshot
filesystem. -/
structure PoolState where
  learner : Model
  learner_name : String
  mu : ℚ
  anchor_mu : ℚ
  sigma : ℚ
  num_active_policies : Nat
  path : String
  tournament : Tournament
  scores : List (String × List ℚ)
  num_scores : Nat
  active_policies : List PolicyRecord
  sample_idxs : List (List Nat)
  learner_mask : List Nat
  database : Database
  fs : FileSys
deriving DecidableEq, Repr, Inhabited

/-- The `Policy` record constructed by `add_policy` (lines 161-170), with
`save_model`'s `model_class` assignment already reflected. -/
def new_policy_record (model : Model) (model_path name : String)
    (tenured : Bool) (mu sigma : ℚ) : PolicyRecord :=
  { model_path := model_path
    model_class := model.arch
    name := name
    mu := mu
    sigma := sigma
    episodes := 0
    tenured := tenured
    model := model }

/-- The part of `add_policy` after the overwrite check (lines 153-183):
default mu/sigma, deep-copy the model, build the record, `save_model`,
insert the row, register with the Rating Engine. -/
def add_policy_rest (st : PoolState) (model : Model) (model_path name : String)
    (tenured : Bool) (mu? sigma? : Option ℚ) (anchor : Bool) : PoolState :=
  let mu := mu?.getD st.mu
  let sigma := sigma?.getD st.sigma
  let policy : PolicyRecord := new_policy_record model model_path name tenured mu sigma
  let fs := fsWrite st.fs model_path model.params
  let database := db_add_policy st.database policy
  let tournament :=
    if anchor then tournament_set_anchor st.tournament name st.anchor_mu st.sigma
    else tournament_add_policy st.tournament name mu sigma
  { st with fs := fs, database := database, tournament := tournament }

/-- `PolicyPool.add_policy` (lines 140-183). A raised `ValueError` is an
error carrying the state at raise time: nothing has been mutated when the
naming conflict fires. `mu?`/`sigma?` are the optional `mu`/`sigma`
arguments (`None` when omitted); `overwrite_existing` defaults to `true` as
in the Python signature. -/
def add_policy (st : PoolState) (model : Model) (name : String)
    (tenured : Bool := false) (mu? : Option ℚ := none)
    (sigma? : Option ℚ := none) (anchor : Bool := false)
    (overwrite_existing : Bool := true) : Except (String × PoolState) PoolState :=
  let model_path := st.path ++ "/" ++ name
  match query_policy_by_name st.database name with
  | some existing =>
    if overwrite_existing then
      Except.ok (add_policy_rest
        { st with database := delete_policy st.database existing }
        model model_path name tenured mu? sigma? anchor)
    else
      Except.error ("A policy with the name '" ++ name ++ "' already exists.", st)
  | none =>
    Except.ok (add_policy_rest st model model_path name tenured mu? sigma? anchor)

/-- `Policy.load_model(model)` (lines 36-38): load the record's own snapshot
parameters into the supplied freshly copied instance and bind the result as
the record's live model; `.cuda()` leaves the value unchanged. `None` when
the snapshot file is absent (`torch.load` failure). -/
def load_model (fs : FileSys) (p : PolicyRecord) (model : Model) :
    Option PolicyRecord :=
  (fsRead fs p.model_path).map
    (fun ps => { p with model := { model with params := ps } })

/-- The rotation loop of `update_active_policies` (lines 278-279): call
`load_model(copy.deepcopy(self.learner))` on each roster record in order. -/
def load_all (fs : FileSys) (learner : Model) :
    List PolicyRecord → Option (List PolicyRecord)
  | [] => some []
  | p :: rest =>
    match load_model fs p learner, load_all fs learner rest with
    | some q, some qs => some (q :: qs)
    | _, _ => none

/-- `PolicyPool.update_active_policies` (lines 272-279). The
`np.random.choice(all_policies, n-1, replace=True)` draw is parameterized by
`picks`, the chosen indices into `query_all_policies`. An absent learner row
or snapshot file is a raised error. -/
def update_active_policies (st : PoolState) (picks : List Nat) :
    Except (String × PoolState) PoolState :=
  match query_policy_by_name st.database st.learner_name with
  | none => Except.error ("learner policy not found", st)
  | some learner_policy =>
    let all_policies := query_all_policies st.database
    let roster := learner_policy :: picks.map (fun i => all_policies.getD i default)
    match load_all st.fs st.learner roster with
    | none => Except.error ("missing snapshot file", st)
    | some active => Except.ok { st with active_policies := active }

/-- One agent's info dict. -/
abbrev AgentInfo := List (String × ℚ)

/-- Dict lookup `i[info_key]` guarded by `info_key not in i`. -/
def infoLookup (i : AgentInfo) (key : String) : Option ℚ :=
  (i.find? (fun e => e.1 == key)).map (fun e => e.2)

/-- The inner loop of `update_scores` (lines 245-250) over one slot's
`pol_infos`: entries missing `info_key` are skipped by `continue`; others
append one sample under the slot's policy name and bump `num_scores`. -/
def score_slot (info_key name : String) (pol_infos : List AgentInfo)
    (acc : List (String × List ℚ) × Nat) : List (String × List ℚ) × Nat :=
  pol_infos.foldl (fun acc i =>
    match infoLookup i info_key with
    | none => acc
    | some v => (scoresAppend acc.1 name v, acc.2 + 1)) acc

/-- The body of `update_scores`'s per-slot loop (lines 238-250): extend the
`policy_infos` dict with this slot's `pol_infos` and run the scoring loop. -/
def update_scores_step (info_key : String) (agent_infos : List AgentInfo)
    (acc : List (String × List AgentInfo) × List (String × List ℚ) × Nat)
    (sp : List Nat × PolicyRecord) :
    List (String × List AgentInfo) × List (String × List ℚ) × Nat :=
  let pol_infos := sp.1.map (fun i => agent_infos.getD i [])
  let polTable :=
    if acc.1.any (fun e => e.1 == sp.2.name) then
      acc.1.map (fun e =>
        if e.1 == sp.2.name then (e.1, e.2 ++ pol_infos) else e)
    else acc.1 ++ [(sp.2.name, pol_infos)]
  (polTable, score_slot info_key sp.2.name pol_infos acc.2)

/-- `PolicyPool.update_scores` (lines 231-252). `infos` is the list of
per-environment dicts given as their value lists; returns the updated state
and the `policy_infos` return value. -/
def update_scores (st : PoolState) (infos : List (List AgentInfo))
    (info_key : String) : PoolState × List (String × List AgentInfo) :=
  let agent_infos := infos.flatten
  let r := (st.sample_idxs.zip st.active_policies).foldl
    (update_scores_step info_key agent_infos) ([], st.scores, st.num_scores)
  ({ st with scores := r.2.1, num_scores := r.2.2 }, r.1)

/-- One step of the `update_ranks` writeback loop (lines 262-267): look the
name up and, when a row exists, commit the rating's mu/sigma to the row
carrying that (unique) name. -/
def writeback_step (db : Database) (e : String × Rating) : Database :=
  match query_policy_by_name db e.1 with
  | some _ => db.map (fun p =>
      if p.name == e.1 then { p with mu := e.2.mu, sigma := e.2.sigma } else p)
  | none => db

/-- The `update_ranks` writeback loop over the engine's `ratings` items. -/
def writeback (rs : List (String × Rating)) (db : Database) : Database :=
  rs.foldl writeback_step db

/-- `PolicyPool.update_ranks` (lines 254-270), parameterized by the Rating
Engine's math: flush the ledger to the engine in one batched call, write
every rated name's mu/sigma back to the store (names without a row are
skipped), then reset the ledger unconditionally. -/
def update_ranks (engine : String → List ℚ → Rating) (st : PoolState) :
    PoolState :=
  let t := tournament_update engine st.tournament
    (st.scores.map (fun e => e.1)) (st.scores.map (fun e => e.2))
  { st with
    tournament := t
    database := writeback t.ratings st.database
    scores := [] }

/-- The external world a `PolicyPool` is constructed against: the database
opened by `PolicyDatabase()` and the snapshot filesystem. -/
structure World where
  database : Database
  fs : FileSys
deriving DecidableEq, Repr, Inhabited

/-- The externally visible part of a pool state. -/
def PoolState.world (st : PoolState) : World := ⟨st.database, st.fs⟩

/-- `PolicyPool.__init__` (lines 83-126). A failed `assert` is an error
carrying the world state at raise time; note the divisibility assert runs
only after the learner has been registered and the first rotation
performed. `picks` parameterizes the initial rotation's random draw. -/
def pool_init (w : World) (evaluation_batch_size : Nat) (learner : Model)
    (name : String) (sample_weights : List Nat) (active_policies : Nat)
    (path : String) (mu anchor_mu sigma : ℚ) (picks : List Nat) :
    Except (String × World) PoolState :=
  if sample_weights.length ≠ active_policies then
    Except.error ("assert len(sample_weights) == active_policies", w)
  else
    let st0 : PoolState :=
      { learner := learner, learner_name := name, mu := mu,
        anchor_mu := anchor_mu, sigma := sigma, num_scores := 0,
        num_active_policies := active_policies, active_policies := [],
        path := path, tournament := { ratings := [], anchors := [] },
        scores := [], sample_idxs := [], learner_mask := [],
        database := w.database, fs := w.fs }
    match add_policy st0 learner name true (some mu) (some sigma) false with
    | Except.error e => Except.error (e.1, e.2.world)
    | Except.ok st1 =>
      match update_active_policies st1 picks with
      | Except.error e => Except.error (e.1, e.2.world)
      | Except.ok st2 =>
        let chunk_size := sample_weights.sum
        if evaluation_batch_size % chunk_size ≠ 0 then
          Except.error ("assert evaluation_batch_size % chunk_size == 0",
            st2.world)
        else
          let sample_idxs := distribute sample_weights evaluation_batch_size
          Except.ok { st2 with
            sample_idxs := sample_idxs,
            learner_mask := (List.range evaluation_batch_size).map
              (fun idx => if idx ∈ sample_idxs.getD 0 [] then 1 else 0) }

/-- An object heap of live model instances; references are list indices. -/
abbrev Heap := List Model

/-- Dereference a model object. -/
def heapGet (h : Heap) (r : Nat) : Model := h.getD r default

/-- Mutate a model object in place. -/
def heapSet (h : Heap) (r : Nat) (m : Model) : Heap := h.set r m

/-- `copy.deepcopy`: allocate a fresh object holding the same value. -/
def deepcopy (h : Heap) (r : Nat) : Heap × Nat := (h ++ [heapGet h r], h.length)

/-- The snapshot part of `add_policy` (lines 159-174) with the model objects
made explicit on a heap, refining `add_policy_rest` so that aliasing is
expressible: the caller passes a reference to a live model object,
`copy.deepcopy` allocates a fresh object, the record binds the fresh
reference's value and `save_model` persists the copied parameters. Returns
the heap, the filesystem, the database and the record's model reference. -/
def add_policy_heap (h : Heap) (fs : FileSys) (db : Database) (path : String)
    (model_ref : Nat) (name : String) (tenured : Bool) (mu sigma : ℚ) :
    Heap × FileSys × Database × Nat :=
  let model_path := path ++ "/" ++ name
  let hc := deepcopy h model_ref
  let m := heapGet hc.1 hc.2
  let policy : PolicyRecord :=
    { model_path := model_path, model_class := m.arch, name := name,
      mu := mu, sigma := sigma, episodes := 0, tenured := tenured, model := m }
  (hc.1, fsWrite fs model_path m.params, db_add_policy db policy, hc.2)

/-! ### Concrete fixtures for witnesses -/

/-- A concrete live model. -/
def wModel : Model := ⟨"Net", [1, 2]⟩

/-- A concrete stored policy record named `X`. -/
def wRecord : PolicyRecord :=
  { model_path := "pool/X", model_class := "Net", name := "X", mu := 1000,
    sigma := 100 / 3, episodes := 0, tenured := true, model := wModel }

/-- A concrete pool state holding `X` as learner and sole stored policy. -/
def wState : PoolState :=
  { learner := wModel, learner_name := "X", mu := 1000, anchor_mu := 1000,
    sigma := 100 / 3, num_active_policies := 2, path := "pool",
    tournament := { ratings := [("X", ⟨1000, 100 / 3⟩)], anchors := [] },
    scores := [], num_scores := 0, active_policies := [wRecord, wRecord],
    sample_idxs := [[0, 2], [1, 3]], learner_mask := [1, 0, 1, 0],
    database := [wRecord], fs := [("pool/X", [1, 2])] }

/-- The concrete pool state after one scored episode for `X`. -/
def wStateScored : PoolState := { wState with scores := [("X", [5])] }

/-- A concrete Rating Engine math for witnesses. -/
def wEngine : String → List ℚ → Rating := fun _ _ => ⟨7, 2⟩

/-- The world of a fresh construction: empty database, empty filesystem. -/
def emptyWorld : World := ⟨[], []⟩

/-! ### Partition-table lemmas (construction lines 112-126) -/

theorem pattern_nil : pattern [] = [] := rfl

theorem pattern_cons (w : Nat) (ws : List Nat) :
    pattern (w :: ws) = List.replicate w 0 ++ (pattern ws).map (· + 1) := by
  simp [pattern, List.enum_cons', List.flatMap_map, List.map_flatMap,
    List.map_replicate, Prod.map]

theorem length_pattern (ws : List Nat) : (pattern ws).length = ws.sum := by
  induction ws with
  | nil => rfl
  | cons w t ih => simp [pattern_cons, ih]

theorem pattern_mem_lt (ws : List Nat) : ∀ x ∈ pattern ws, x < ws.length := by
  induction ws with
  | nil => intro x hx; simp [pattern_nil] at hx
  | cons w t ih =>
    intro x hx
    rw [pattern_cons] at hx
    rcases List.mem_append.1 hx with h | h
    · rw [List.eq_of_mem_replicate h]; simp
    · rcases List.mem_map.1 h with ⟨y, hy, rfl⟩
      have := ih y hy
      simp only [List.length_cons]
      omega

theorem count_zero_map_succ (l : List Nat) : (l.map (· + 1)).count 0 = 0 := by
  rw [List.count_eq_zero]
  intro h
  rcases List.mem_map.1 h with ⟨y, _, hy⟩
  omega

theorem count_pattern (ws : List Nat) : ∀ i : Nat, i < ws.length →
    (pattern ws).count i = ws.getD i 0 := by
  induction ws with
  | nil => intro i hi; simp at hi
  | cons w t ih =>
    intro i hi
    rw [pattern_cons, List.count_append]
    cases i with
    | zero =>
      rw [List.count_replicate_self, count_zero_map_succ, List.getD_cons_zero]
      omega
    | succ j =>
      have h1 : (List.replicate w 0).count (j + 1) = 0 := by
        rw [List.count_replicate]; simp
      have h2 : ((pattern t).map (· + 1)).count (j + 1) = (pattern t).count j :=
        List.count_map_of_injective _ _ (fun a b hab => by omega) j
      rw [h1, h2, List.getD_cons_succ]
      exact Nat.zero_add _ ▸ ih j (by simpa using Nat.lt_of_succ_lt_succ hi)

theorem sum_pos_of_mem {ws : List Nat} {w : Nat} (hw : w ∈ ws) (hp : 0 < w) :
    0 < ws.sum := by
  induction ws with
  | nil => cases hw
  | cons a t ih =>
    rcases List.mem_cons.1 hw with rfl | h
    · simp only [List.sum_cons]; omega
    · have := ih h; simp only [List.sum_cons]; omega

theorem distribute_zero (ws : List Nat) :
    distribute ws 0 = List.replicate ws.length [] := rfl

theorem distribute_succ (ws : List Nat) (B : Nat) :
    distribute ws (B + 1) =
      (distribute ws B).set ((pattern ws).getD (B % ws.sum) 0)
        (((distribute ws B).getD ((pattern ws).getD (B % ws.sum) 0) []) ++ [B]) := by
  simp only [distribute, List.range_succ, List.foldl_append, List.foldl_cons,
    List.foldl_nil]

theorem length_distribute (ws : List Nat) (B : Nat) :
    (distribute ws B).length = ws.length := by
  induction B with
  | zero => simp [distribute_zero]
  | succ B ih => rw [distribute_succ, List.length_set, ih]

theorem pattern_getD_lt (ws : List Nat) (j : Nat) (hj : j < ws.sum) :
    (pattern ws).getD j 0 < ws.length := by
  have hjl : j < (pattern ws).length := by rw [length_pattern]; exact hj
  have hg : (pattern ws).getD j 0 = (pattern ws)[j] := by
    simp [List.getD_eq_getElem?_getD, List.getElem?_eq_getElem hjl]
  rw [hg]
  exact pattern_mem_lt ws _ (List.getElem_mem hjl)

theorem distribute_getD (ws : List Nat) (hw : 0 < ws.sum) (B i : Nat)
    (hi : i < ws.length) :
    (distribute ws B).getD i [] =
      (List.range B).filter (fun idx => (pattern ws).getD (idx % ws.sum) 0 == i) := by
  induction B with
  | zero => rw [distribute_zero]; simp
  | succ B ih =>
    rw [distribute_succ]
    have hmod : B % ws.sum < ws.sum := Nat.mod_lt _ hw
    have hs : (pattern ws).getD (B % ws.sum) 0 < (distribute ws B).length := by
      rw [length_distribute]; exact pattern_getD_lt ws _ hmod
    rw [List.range_succ, List.filter_append]
    by_cases hsi : (pattern ws).getD (B % ws.sum) 0 = i
    · subst hsi
      rw [List.getD_eq_getElem?_getD, List.getElem?_set, if_pos rfl, if_pos hs,
        Option.getD_some, ih]
      simp
    · rw [List.getD_eq_getElem?_getD, List.getElem?_set, if_neg hsi,
        ← List.getD_eq_getElem?_getD, ih]
      have hpb : ((pattern ws).getD (B % ws.sum) 0 == i) = false := by
        simpa using hsi
      simp only [List.filter_cons, List.filter_nil, hpb, Bool.false_eq_true,
        if_false, List.append_nil]

theorem countP_range_mul (c : Nat) (p : Nat → Bool) :
    ∀ q : Nat, (List.range (q * c)).countP (fun idx => p (idx % c)) =
      q * (List.range c).countP (fun idx => p (idx % c))
  | 0 => by simp
  | q + 1 => by
    have h : (q + 1) * c = q * c + c := by ring
    rw [h, List.range_add, List.countP_append, countP_range_mul c p q]
    have hmap : ((List.range c).map (q * c + ·)).countP (fun idx => p (idx % c)) =
        (List.range c).countP fun idx => p (idx % c) := by
      rw [List.countP_map]
      apply List.countP_congr
      intro x _
      have hx' : (q * c + x) % c = x % c := by
        rw [Nat.add_comm, Nat.mul_comm, Nat.add_mul_mod_self_left]
      simp [Function.comp, hx']
    rw [hmap]
    ring

theorem map_getD_range (l : List Nat) :
    (List.range l.length).map (fun j => l.getD j 0) = l := by
  induction l with
  | nil => rfl
  | cons a t ih =>
    rw [List.length_cons, List.range_succ_eq_map, List.map_cons, List.map_map]
    have h : ((fun j => (a :: t).getD j 0) ∘ Nat.succ) = fun j => t.getD j 0 := by
      funext j; simp
    rw [h, ih]
    simp

theorem countP_getD_range (l : List Nat) (i : Nat) :
    (List.range l.length).countP (fun j => l.getD j 0 == i) = l.count i := by
  conv_rhs => rw [← map_getD_range l]
  rw [List.count_eq_countP, List.countP_map]
  rfl

theorem distribute_count (ws : List Nat) (hw : 0 < ws.sum) (q i : Nat)
    (hi : i < ws.length) :
    ((distribute ws (q * ws.sum)).getD i []).length = q * ws.getD i 0 := by
  rw [distribute_getD ws hw _ i hi, ← List.countP_eq_length_filter,
    countP_range_mul ws.sum (fun r => (pattern ws).getD r 0 == i) q]
  have h2 : ∀ x ∈ List.range ws.sum,
      ((pattern ws).getD (x % ws.sum) 0 == i) = ((pattern ws).getD x 0 == i) := by
    intro x hx
    rw [Nat.mod_eq_of_lt (List.mem_range.1 hx)]
  rw [List.countP_congr (fun x hx => by rw [h2 x hx])]
  have h3 : List.range ws.sum = List.range (pattern ws).length := by
    rw [length_pattern]
  rw [h3, countP_getD_range, count_pattern ws i hi]

/-- C1: for positive `sample_weights` and `evaluation_batch_size` divisible by
their sum, the partition table has one sublist per slot, assigns every batch
index in `[0, B)` to exactly one slot, namely slot
`pattern[idx % chunk]`, and slot `i` receives `B * weights[i] / sum(weights)`
indices; in particular weights `[3,1]` with batch size `8` give slot 0 the
indices `{0,1,2,4,5,6}` and slot 1 the indices `{3,7}`. -/
theorem partition_table_correct (ws : List Nat) (B : Nat)
    (hpos : ∀ w ∈ ws, 0 < w) (hdvd : ws.sum ∣ B) :
    ((distribute ws B).length = ws.length ∧
     (∀ idx, idx < B →
        ∃! i, i < ws.length ∧ idx ∈ (distribute ws B).getD i []) ∧
     (∀ idx, idx < B →
        idx ∈ (distribute ws B).getD ((pattern ws).getD (idx % ws.sum) 0) []) ∧
     (∀ i, i < ws.length →
        ((distribute ws B).getD i []).length = B * ws.getD i 0 / ws.sum)) ∧
    distribute [3, 1] 8 = [[0, 1, 2, 4, 5, 6], [3, 7]] := by
  have hwB : ∀ idx, idx < B → 0 < ws.sum := by
    intro idx hidx
    rcases Nat.eq_zero_or_pos ws.sum with h0 | hw
    · rcases hdvd with ⟨q, hq⟩
      rw [h0, Nat.zero_mul] at hq
      omega
    · exact hw
  have hmem : ∀ idx, idx < B →
      idx ∈ (distribute ws B).getD ((pattern ws).getD (idx % ws.sum) 0) [] := by
    intro idx hidx
    have hw := hwB idx hidx
    have hsl : (pattern ws).getD (idx % ws.sum) 0 < ws.length :=
      pattern_getD_lt ws _ (Nat.mod_lt _ hw)
    rw [distribute_getD ws hw B _ hsl]
    simp [List.mem_filter, List.mem_range, hidx]
  refine ⟨⟨length_distribute ws B, ?_, hmem, ?_⟩, by decide⟩
  · intro idx hidx
    have hw := hwB idx hidx
    have hsl : (pattern ws).getD (idx % ws.sum) 0 < ws.length :=
      pattern_getD_lt ws _ (Nat.mod_lt _ hw)
    refine ⟨(pattern ws).getD (idx % ws.sum) 0, ⟨hsl, hmem idx hidx⟩, ?_⟩
    intro j hj
    rcases hj with ⟨hjl, hjm⟩
    rw [distribute_getD ws hw B j hjl] at hjm
    have hb := (List.mem_filter.1 hjm).2
    exact (eq_of_beq hb).symm
  · intro i hi
    have hw : 0 < ws.sum := by
      have hm : ws.getD i 0 ∈ ws := by
        have hig : ws.getD i 0 = ws[i] := by
          simp [List.getD_eq_getElem?_getD, List.getElem?_eq_getElem hi]
        rw [hig]
        exact List.getElem_mem hi
      exact sum_pos_of_mem hm (hpos _ hm)
    rcases hdvd with ⟨q, hq⟩
    subst hq
    rw [Nat.mul_comm ws.sum q, distribute_count ws hw q i hi]
    have h4 : q * ws.sum * ws.getD i 0 = q * ws.getD i 0 * ws.sum := by ring
    rw [h4, Nat.mul_div_cancel _ hw]

/-- C1 witness: the hypotheses hold at weights `[3,1]`, batch size `8`, and
the theorem yields the concrete partition there. -/
theorem partition_table_correct_witness :
    (∀ w ∈ [3, 1], 0 < w) ∧ ([3, 1] : List Nat).sum ∣ 8 ∧
      distribute [3, 1] 8 = [[0, 1, 2, 4, 5, 6], [3, 7]] :=
  ⟨by decide, by decide,
    (partition_table_correct [3, 1] 8 (by decide) (by decide)).2⟩

/-! ### Store lemmas and the `add_policy` claims -/

theorem find?_eraseP_none {α : Type} (p : α → Bool) :
    ∀ l : List α, l.countP p ≤ 1 → (l.eraseP p).find? p = none := by
  intro l
  induction l with
  | nil => intro _; rfl
  | cons a t ih =>
    intro h
    by_cases hpa : p a
    · rw [List.eraseP_cons_of_pos hpa]
      rw [List.countP_cons_of_pos _ _ hpa] at h
      have ht : t.countP p = 0 := by omega
      rw [List.find?_eq_none]
      intro x hx
      have := List.countP_eq_zero.1 ht x hx
      simp [this]
    · rw [List.eraseP_cons_of_neg hpa, List.find?_cons_of_neg _ hpa]
      apply ih
      rwa [List.countP_cons_of_neg _ _ hpa] at h

/-- C3: with a record named `X` in the store, `add_policy` with name `X` and
`overwrite_existing = false` raises the naming-conflict `ValueError` with the
state at raise time exactly the input state: the store is unchanged and the
prior record is still retrievable, with no new record, snapshot, or Rating
Engine registration. -/
theorem add_policy_conflict (st : PoolState) (model : Model) (name : String)
    (tenured : Bool) (mu? sigma? : Option ℚ) (anchor : Bool)
    (p : PolicyRecord) (hp : query_policy_by_name st.database name = some p) :
    add_policy st model name tenured mu? sigma? anchor false =
      Except.error ("A policy with the name '" ++ name ++ "' already exists.", st) ∧
    query_policy_by_name st.database name = some p := by
  refine ⟨?_, hp⟩
  simp [add_policy, hp]

/-- C6: adding a fresh name and then querying it round-trips: the returned
record's mu, sigma, episodes and tenured flag are exactly what `add_policy`
stored, with mu/sigma falling back to the pool's configured defaults when
the optional arguments are omitted, and episodes starting at `0`. -/
theorem add_policy_roundtrip (st : PoolState) (model : Model) (name : String)
    (tenured : Bool) (mu? sigma? : Option ℚ) (anchor : Bool) (ow : Bool)
    (hfresh : query_policy_by_name st.database name = none) :
    ∃ st', add_policy st model name tenured mu? sigma? anchor ow = Except.ok st' ∧
      ∃ r, query_policy_by_name st'.database name = some r ∧
        r.mu = mu?.getD st.mu ∧ r.sigma = sigma?.getD st.sigma ∧
        r.episodes = 0 ∧ r.tenured = tenured := by
  refine ⟨add_policy_rest st model (st.path ++ "/" ++ name) name tenured mu? sigma? anchor,
    ?_, ?_⟩
  · simp [add_policy, hfresh]
  · refine ⟨new_policy_record model (st.path ++ "/" ++ name) name tenured
      (mu?.getD st.mu) (sigma?.getD st.sigma), ?_, rfl, rfl, rfl, rfl⟩
    unfold query_policy_by_name at hfresh ⊢
    simp [add_policy_rest, db_add_policy, new_policy_record, List.find?_append, hfresh]

/-- C10: `overwrite_existing` defaults to `true`, so calling `add_policy`
with a colliding name and the argument omitted raises nothing: the prior
record is deleted and the new one inserted; the naming-conflict error occurs
exactly when the caller passes `overwrite_existing = false`. -/
theorem add_policy_default_overwrites (st : PoolState) (model : Model)
    (name : String) (tenured : Bool) (mu? sigma? : Option ℚ) (anchor : Bool)
    (p : PolicyRecord) (hp : query_policy_by_name st.database name = some p)
    (huniq : st.database.countP (fun q => q.name == name) ≤ 1) :
    (∃ st', add_policy st model name tenured mu? sigma? anchor = Except.ok st' ∧
      st'.database = db_add_policy (delete_policy st.database p)
        (new_policy_record model (st.path ++ "/" ++ name) name tenured
          (mu?.getD st.mu) (sigma?.getD st.sigma)) ∧
      query_policy_by_name st'.database name = some
        (new_policy_record model (st.path ++ "/" ++ name) name tenured
          (mu?.getD st.mu) (sigma?.getD st.sigma))) ∧
    (∀ ow : Bool,
      (∃ e, add_policy st model name tenured mu? sigma? anchor ow = Except.error e)
        ↔ ow = false) := by
  have hpname : p.name = name := by
    have := List.find?_some hp
    simpa using this
  constructor
  · refine ⟨add_policy_rest { st with database := delete_policy st.database p }
      model (st.path ++ "/" ++ name) name tenured mu? sigma? anchor,
      by simp [add_policy, hp], by simp [add_policy_rest], ?_⟩
    have herase : ((st.database.eraseP fun q => q.name == p.name).find?
        fun q => q.name == name) = none := by
      rw [hpname]
      exact find?_eraseP_none _ st.database huniq
    unfold query_policy_by_name
    simp only [add_policy_rest, db_add_policy, delete_policy]
    rw [List.find?_append, herase]
    simp [new_policy_record]
  · intro ow
    cases ow with
    | false => simp [add_policy, hp]
    | true => simp [add_policy, hp]

/-- C3 witness: on the concrete state storing `X`, overwrite-disabled
`add_policy` raises and hands back the unchanged state. -/
theorem add_policy_conflict_witness :
    query_policy_by_name wState.database "X" = some wRecord ∧
    add_policy wState wModel "X" false none none false false =
      Except.error ("A policy with the name '" ++ "X" ++ "' already exists.", wState) :=
  ⟨rfl, (add_policy_conflict wState wModel "X" false none none false wRecord rfl).1⟩

/-- C6 witness: adding fresh name `Y` and querying it round-trips. -/
theorem add_policy_roundtrip_witness :
    query_policy_by_name wState.database "Y" = none ∧
    ∃ st', add_policy wState wModel "Y" false none none false true = Except.ok st' ∧
      ∃ r, query_policy_by_name st'.database "Y" = some r ∧
        r.mu = (none : Option ℚ).getD wState.mu ∧
        r.sigma = (none : Option ℚ).getD wState.sigma ∧
        r.episodes = 0 ∧ r.tenured = false :=
  ⟨rfl, add_policy_roundtrip wState wModel "Y" false none none false true rfl⟩

/-- C10 witness: on the concrete state storing `X`, `add_policy` with the
overwrite argument omitted replaces the record, and only an explicit
`overwrite_existing = false` raises. -/
theorem add_policy_default_overwrites_witness :
    query_policy_by_name wState.database "X" = some wRecord ∧
    wState.database.countP (fun q => q.name == "X") ≤ 1 ∧
    (∃ st', add_policy wState wModel "X" = Except.ok st' ∧
      st'.database = db_add_policy (delete_policy wState.database wRecord)
        (new_policy_record wModel (wState.path ++ "/" ++ "X") "X" false
          ((none : Option ℚ).getD wState.mu) ((none : Option ℚ).getD wState.sigma)) ∧
      query_policy_by_name st'.database "X" = some
        (new_policy_record wModel (wState.path ++ "/" ++ "X") "X" false
          ((none : Option ℚ).getD wState.mu) ((none : Option ℚ).getD wState.sigma))) ∧
    (∀ ow : Bool,
      (∃ e, add_policy wState wModel "X" false none none false ow = Except.error e)
        ↔ ow = false) := by
  have h := add_policy_default_overwrites wState wModel "X" false none none false
    wRecord rfl (by decide)
  exact ⟨rfl, by decide, h.1, h.2⟩

/-! ### Roster-rotation lemmas and claims -/

theorem load_all_forall₂ (fs : FileSys) (m : Model) :
    ∀ (l l' : List PolicyRecord), load_all fs m l = some l' →
      List.Forall₂ (fun p q => load_model fs p m = some q) l l' := by
  intro l
  induction l with
  | nil =>
    intro l' h
    unfold load_all at h
    cases h
    exact List.Forall₂.nil
  | cons p t ih =>
    intro l' h
    unfold load_all at h
    cases hm : load_model fs p m with
    | none => rw [hm] at h; cases h
    | some q =>
      rw [hm] at h
      cases hr : load_all fs m t with
      | none => rw [hr] at h; cases h
      | some qs =>
        rw [hr] at h
        cases h
        exact List.Forall₂.cons hm (ih qs hr)

theorem forall₂_mem_right {α β : Type} {R : α → β → Prop} :
    ∀ {l : List α} {l' : List β}, List.Forall₂ R l l' →
      ∀ y ∈ l', ∃ x ∈ l, R x y := by
  intro l l' h
  induction h with
  | nil => intro y hy; cases hy
  | cons hr _ ih =>
    intro y hy
    rcases List.mem_cons.1 hy with rfl | hy'
    · exact ⟨_, List.mem_cons_self .., hr⟩
    · rcases ih y hy' with ⟨x, hx, hxy⟩
      exact ⟨x, List.mem_cons_of_mem _ hx, hxy⟩

/-- C4: whenever `update_active_policies` succeeds with a draw of the
Python-guaranteed size `num_active_policies - 1` over valid store indices,
the new roster has length exactly `num_active_policies`, slot 0 carries the
learner's registered name, and every remaining slot is (a reload of) a
record drawn from the full store. -/
theorem update_active_roster (st : PoolState) (picks : List Nat) (st' : PoolState)
    (hn : 0 < st.num_active_policies)
    (hlen : picks.length = st.num_active_policies - 1)
    (hpicks : ∀ i ∈ picks, i < st.database.length)
    (hok : update_active_policies st picks = Except.ok st') :
    st'.active_policies.length = st.num_active_policies ∧
    (∃ r, st'.active_policies.head? = some r ∧ r.name = st.learner_name) ∧
    (∀ r ∈ st'.active_policies.tail, ∃ q ∈ st.database, r.name = q.name) := by
  unfold update_active_policies at hok
  cases hq : query_policy_by_name st.database st.learner_name with
  | none => rw [hq] at hok; cases hok
  | some lp =>
    rw [hq] at hok
    dsimp only at hok
    cases hl : load_all st.fs st.learner
        (lp :: picks.map (fun i => (query_all_policies st.database).getD i default)) with
    | none => rw [hl] at hok; cases hok
    | some active =>
      rw [hl] at hok
      cases hok
      have hf := load_all_forall₂ st.fs st.learner _ _ hl
      cases hf with
      | cons hload htail =>
        rename_i q qs
        have hlpname : lp.name = st.learner_name := by
          have := List.find?_some hq
          simpa using this
        have hqname : q.name = lp.name := by
          unfold load_model at hload
          cases hps : fsRead st.fs lp.model_path with
          | none => rw [hps] at hload; cases hload
          | some ps => rw [hps] at hload; cases hload; rfl
        refine ⟨?_, ⟨q, rfl, hqname.trans hlpname⟩, ?_⟩
        · have := htail.length_eq
          simp only [List.length_cons, List.length_map] at *
          omega
        · intro r hr
          rcases forall₂_mem_right htail r hr with ⟨x, hx, hxy⟩
          rcases List.mem_map.1 hx with ⟨i, hi, rfl⟩
          have hidx : i < st.database.length := hpicks i hi
          have hmem : (query_all_policies st.database).getD i default ∈ st.database := by
            unfold query_all_policies
            have : st.database.getD i default = st.database[i] := by
              simp [List.getD_eq_getElem?_getD, List.getElem?_eq_getElem hidx]
            rw [this]
            exact List.getElem_mem hidx
          refine ⟨_, hmem, ?_⟩
          unfold load_model at hxy
          cases hps : fsRead st.fs ((query_all_policies st.database).getD i default).model_path with
          | none => rw [hps] at hxy; cases hxy
          | some ps => rw [hps] at hxy; cases hxy; rfl

/-- C4 witness: on the concrete one-record store with draw `[0]`, rotation
succeeds and the roster is `[X, X]` with the learner in slot 0. -/
theorem update_active_roster_witness :
    (0 < wState.num_active_policies) ∧
    ([0].length = wState.num_active_policies - 1) ∧
    (update_active_policies wState [0] = Except.ok wState) ∧
    (wState.active_policies.length = wState.num_active_policies ∧
     (∃ r, wState.active_policies.head? = some r ∧ r.name = wState.learner_name) ∧
     (∀ r ∈ wState.active_policies.tail, ∃ q ∈ wState.database, r.name = q.name)) := by
  have hok : update_active_policies wState [0] = Except.ok wState := rfl
  exact ⟨by decide, by decide, hok,
    update_active_roster wState [0] wState (by decide) (by decide)
      (by decide) hok⟩

/-- C8: on every successful rotation, each active slot's record holds a
freshly materialized model shaped like the learner's architecture whose
parameters are that slot's own persisted snapshot read from the record's
`model_path`; the snapshot filesystem, the store, and the learner itself are
untouched by the rotation. -/
theorem rotation_loads_snapshots (st : PoolState) (picks : List Nat)
    (st' : PoolState) (hok : update_active_policies st picks = Except.ok st') :
    (∀ r ∈ st'.active_policies,
       ∃ ps, fsRead st.fs r.model_path = some ps ∧
         r.model = { arch := st.learner.arch, params := ps }) ∧
    st'.fs = st.fs ∧ st'.database = st.database ∧ st'.learner = st.learner := by
  unfold update_active_policies at hok
  cases hq : query_policy_by_name st.database st.learner_name with
  | none => rw [hq] at hok; cases hok
  | some lp =>
    rw [hq] at hok
    dsimp only at hok
    cases hl : load_all st.fs st.learner
        (lp :: picks.map (fun i => (query_all_policies st.database).getD i default)) with
    | none => rw [hl] at hok; cases hok
    | some active =>
      rw [hl] at hok
      cases hok
      refine ⟨?_, rfl, rfl, rfl⟩
      intro r hr
      have hf := load_all_forall₂ st.fs st.learner _ _ hl
      rcases forall₂_mem_right hf r hr with ⟨x, _, hxy⟩
      unfold load_model at hxy
      cases hps : fsRead st.fs x.model_path with
      | none => rw [hps] at hxy; cases hxy
      | some ps =>
        rw [hps] at hxy
        cases hxy
        exact ⟨ps, hps, rfl⟩

/-- C8 witness: the concrete rotation with draw `[0]` succeeds, and the
theorem's conclusions hold there. -/
theorem rotation_loads_snapshots_witness :
    (update_active_policies wState [0] = Except.ok wState) ∧
    ((∀ r ∈ wState.active_policies,
        ∃ ps, fsRead wState.fs r.model_path = some ps ∧
          r.model = { arch := wState.learner.arch, params := ps }) ∧
     wState.fs = wState.fs ∧ wState.database = wState.database ∧
     wState.learner = wState.learner) := by
  have hok : update_active_policies wState [0] = Except.ok wState := rfl
  exact ⟨hok, rotation_loads_snapshots wState [0] wState hok⟩

/-! ### Score-ledger lemmas and the `update_scores` claim -/

theorem find?_map_keep {κ β : Type} [BEq κ] (g : κ × β → κ × β)
    (hg : ∀ e, (g e).1 = e.1) (m : κ) :
    ∀ sc : List (κ × β),
      (sc.map g).find? (fun e => e.1 == m) =
        (sc.find? (fun e => e.1 == m)).map g := by
  intro sc
  induction sc with
  | nil => rfl
  | cons e t ih =>
    rw [List.map_cons]
    have hge : ((g e).1 == m) = (e.1 == m) := by rw [hg e]
    by_cases he : (e.1 == m) = true
    · rw [@List.find?_cons_of_pos _ (fun e => e.1 == m) (g e) (t.map g)
        (hge.trans he),
        @List.find?_cons_of_pos _ (fun e => e.1 == m) e t he, Option.map_some']
    · rw [@List.find?_cons_of_neg _ (fun e => e.1 == m) (g e) (t.map g)
        (by dsimp only; rw [hge]; exact he),
        @List.find?_cons_of_neg _ (fun e => e.1 == m) e t he, ih]

theorem scoresGet_scoresAppend (sc : List (String × List ℚ)) (n : String)
    (v : ℚ) (m : String) :
    scoresGet (scoresAppend sc n v) m =
      if m = n then scoresGet sc m ++ [v] else scoresGet sc m := by
  unfold scoresAppend scoresGet
  by_cases hany : (sc.any (fun e => e.1 == n)) = true
  · rw [if_pos hany,
      find?_map_keep (fun e => if e.1 == n then (e.1, e.2 ++ [v]) else e)
        (fun e => by dsimp only; split <;> rfl) m sc]
    cases hf : sc.find? (fun e => e.1 == m) with
    | none =>
      by_cases hmn : m = n
      · rcases List.any_eq_true.1 hany with ⟨x, hx, hpx⟩
        rw [← hmn] at hpx
        exact absurd hpx (List.find?_eq_none.1 hf x hx)
      · simp [hmn]
    | some e =>
      have he1 : e.1 = m := by
        have := List.find?_some hf
        simpa using this
      by_cases hmn : m = n
      · have hen : e.1 = n := he1.trans hmn
        simp [hen, hmn]
      · have hen : ¬(e.1 = n) := by rw [he1]; exact hmn
        simp [hen, hmn]
  · rw [if_neg hany, List.find?_append]
    by_cases hmn : m = n
    · have hnone : sc.find? (fun e => e.1 == n) = none := by
        rw [List.find?_eq_none]
        intro x hx hpx
        exact hany (List.any_eq_true.2 ⟨x, hx, hpx⟩)
      simp [hmn, hnone]
    · have hnm : ¬((fun (e : String × List ℚ) => e.1 == m) (n, [v])) = true := by
        simpa using fun h => hmn h.symm
      rw [@List.find?_cons_of_neg _ (fun e => e.1 == m) (n, [v]) [] hnm,
        List.find?_nil, Option.or_none]
      simp [hmn]

theorem score_slot_nil (key name : String) (acc : List (String × List ℚ) × Nat) :
    score_slot key name [] acc = acc := rfl

theorem score_slot_cons_none (key name : String) (i : AgentInfo)
    (t : List AgentInfo) (acc : List (String × List ℚ) × Nat)
    (h : infoLookup i key = none) :
    score_slot key name (i :: t) acc = score_slot key name t acc := by
  unfold score_slot
  rw [List.foldl_cons]
  congr 1
  simp [h]

theorem score_slot_cons_some (key name : String) (i : AgentInfo)
    (t : List AgentInfo) (acc : List (String × List ℚ) × Nat) (v : ℚ)
    (h : infoLookup i key = some v) :
    score_slot key name (i :: t) acc =
      score_slot key name t (scoresAppend acc.1 name v, acc.2 + 1) := by
  unfold score_slot
  rw [List.foldl_cons]
  congr 1
  simp [h]

theorem score_slot_get (key name : String) :
    ∀ (l : List AgentInfo) (acc : List (String × List ℚ) × Nat) (m : String),
      scoresGet (score_slot key name l acc).1 m =
        if m = name then
          scoresGet acc.1 m ++ l.filterMap (fun e => infoLookup e key)
        else scoresGet acc.1 m := by
  intro l
  induction l with
  | nil =>
    intro acc m
    rw [score_slot_nil]
    simp
  | cons i t ih =>
    intro acc m
    cases hv : infoLookup i key with
    | none =>
      rw [score_slot_cons_none key name i t acc hv, ih acc m,
        @List.filterMap_cons_none _ _ (fun e => infoLookup e key) i t hv]
    | some v =>
      rw [score_slot_cons_some key name i t acc v hv,
        ih (scoresAppend acc.1 name v, acc.2 + 1) m]
      dsimp only
      rw [scoresGet_scoresAppend,
        @List.filterMap_cons_some _ _ (fun e => infoLookup e key) i t v hv]
      by_cases hmn : m = name
      · simp [hmn, List.append_assoc]
      · simp [hmn]

theorem fold_scores (key : String) (ai : List AgentInfo) :
    ∀ (z : List (List Nat × PolicyRecord))
      (acc : List (String × List AgentInfo) × List (String × List ℚ) × Nat)
      (m : String),
      scoresGet (z.foldl (update_scores_step key ai) acc).2.1 m =
        scoresGet acc.2.1 m ++
          (z.filter (fun sp => sp.2.name == m)).flatMap
            (fun sp => (sp.1.map (fun i => ai.getD i [])).filterMap
              (fun e => infoLookup e key)) := by
  intro z
  induction z with
  | nil => intro acc m; simp
  | cons sp t ih =>
    intro acc m
    rw [List.foldl_cons, ih (update_scores_step key ai acc sp) m]
    have hstep : (update_scores_step key ai acc sp).2.1 =
        (score_slot key sp.2.name (sp.1.map (fun i => ai.getD i [])) acc.2).1 := rfl
    rw [hstep,
      score_slot_get key sp.2.name (sp.1.map (fun i => ai.getD i [])) acc.2 m]
    by_cases hmn : m = sp.2.name
    · have hb : ((fun (q : List Nat × PolicyRecord) => q.2.name == m) sp) = true := by
        simp [hmn]
      rw [if_pos hmn,
        @List.filter_cons_of_pos _ (fun q => q.2.name == m) sp t hb,
        List.flatMap_cons, List.append_assoc]
    · have hb : ¬((fun (q : List Nat × PolicyRecord) => q.2.name == m) sp) = true := by
        simpa using fun h => hmn h.symm
      rw [if_neg hmn,
        @List.filter_cons_of_neg _ (fun q => q.2.name == m) sp t hb]

/-- C7: in `update_scores`, the ledger entry for name `m` is extended by
exactly the values under `info_key` of those agent entries, taken in slot
order over the slots whose policy is named `m`, that contain the key:
entries missing the key are skipped silently, and slots sharing a name
accumulate into the single ledger entry for that name. Concretely, on a
two-slot roster both named `X` with four agent entries of which one lacks
the key, the ledger for `X` gains exactly three samples. -/
theorem update_scores_ledger (st : PoolState) (infos : List (List AgentInfo))
    (key : String) (m : String) :
    (scoresGet (update_scores st infos key).1.scores m =
      scoresGet st.scores m ++
        ((st.sample_idxs.zip st.active_policies).filter
            (fun sp => sp.2.name == m)).flatMap
          (fun sp => (sp.1.map (fun i => infos.flatten.getD i [])).filterMap
            (fun e => infoLookup e key))) ∧
    (update_scores wState
        [[[("score", 5)], [("other", 1)]], [[("score", 7)], [("score", 9)]]]
        "score").1.scores = [("X", [5, 7, 9])] := by
  constructor
  · show scoresGet ((st.sample_idxs.zip st.active_policies).foldl
        (update_scores_step key infos.flatten)
        ([], st.scores, st.num_scores)).2.1 m = _
    rw [fold_scores key infos.flatten (st.sample_idxs.zip st.active_policies)
      ([], st.scores, st.num_scores) m]
  · rfl

/-! ### Rank-update lemmas and the `update_ranks` claim -/

theorem find?_map_pred {α : Type} (g : α → α) (p : α → Bool)
    (hp : ∀ x, p (g x) = p x) :
    ∀ l : List α, (l.map g).find? p = (l.find? p).map g := by
  intro l
  induction l with
  | nil => rfl
  | cons e t ih =>
    rw [List.map_cons]
    by_cases he : p e = true
    · rw [@List.find?_cons_of_pos _ p (g e) (t.map g) ((hp e).trans he),
        @List.find?_cons_of_pos _ p e t he, Option.map_some']
    · rw [@List.find?_cons_of_neg _ p (g e) (t.map g) (by rw [hp e]; exact he),
        @List.find?_cons_of_neg _ p e t he, ih]

theorem writeback_names (rs : List (String × Rating)) :
    ∀ db : Database, (writeback rs db).map (fun p => p.name) =
      db.map (fun p => p.name) := by
  induction rs with
  | nil => intro db; rfl
  | cons e rs ih =>
    intro db
    have hwb : writeback (e :: rs) db = writeback rs (writeback_step db e) := rfl
    rw [hwb, ih]
    unfold writeback_step
    cases query_policy_by_name db e.1 with
    | none => rfl
    | some _ =>
      rw [List.map_map]
      exact List.map_congr_left (fun p _ => by simp only [Function.comp_apply]; split <;> rfl)

theorem writeback_query (rs : List (String × Rating)) :
    ∀ (db : Database) (n : String), (rs.map (fun e => e.1)).Nodup →
      query_policy_by_name (writeback rs db) n =
        (query_policy_by_name db n).map (fun p =>
          match rs.find? (fun e => e.1 == n) with
          | some e => { p with mu := e.2.mu, sigma := e.2.sigma }
          | none => p) := by
  induction rs with
  | nil =>
    intro db n _
    show query_policy_by_name db n = _
    cases query_policy_by_name db n <;> rfl
  | cons e rs ih =>
    intro db n hnd
    rw [List.map_cons, List.nodup_cons] at hnd
    have hwb : writeback (e :: rs) db = writeback rs (writeback_step db e) := rfl
    rw [hwb, ih (writeback_step db e) n hnd.2]
    cases hq : query_policy_by_name db e.1 with
    | none =>
      have hstep : writeback_step db e = db := by unfold writeback_step; rw [hq]
      rw [hstep]
      by_cases hne : (e.1 == n) = true
      · have hn : n = e.1 := (eq_of_beq hne).symm
        rw [← hn] at hq
        rw [hq]
        rfl
      · rw [@List.find?_cons_of_neg _ (fun q => q.1 == n) e rs hne]
    | some p0 =>
      have hstep : writeback_step db e = db.map (fun p =>
          if p.name == e.1 then { p with mu := e.2.mu, sigma := e.2.sigma }
          else p) := by
        unfold writeback_step; rw [hq]
      rw [hstep]
      have hqmap : query_policy_by_name (db.map (fun p =>
          if p.name == e.1 then { p with mu := e.2.mu, sigma := e.2.sigma }
          else p)) n =
          (query_policy_by_name db n).map (fun p =>
            if p.name == e.1 then { p with mu := e.2.mu, sigma := e.2.sigma }
            else p) :=
        find?_map_pred _ _ (fun x => by split <;> rfl) db
      rw [hqmap]
      by_cases hne : (e.1 == n) = true
      · have hn : e.1 = n := eq_of_beq hne
        rw [@List.find?_cons_of_pos _ (fun q => q.1 == n) e rs hne]
        have hrs : rs.find? (fun q => q.1 == n) = none := by
          rw [List.find?_eq_none]
          intro x hx hpx
          refine hnd.1 ?_
          have hm : x.1 ∈ rs.map (fun q => q.1) := List.mem_map.2 ⟨x, hx, rfl⟩
          rwa [eq_of_beq hpx, ← hn] at hm
        rw [hrs]
        cases hqn : query_policy_by_name db n with
        | none => rfl
        | some p =>
          have hpn : p.name = n := by
            have := List.find?_some hqn
            simpa using this
          have hpe : p.name = e.1 := hpn.trans hn.symm
          simp [hpe]
      · rw [@List.find?_cons_of_neg _ (fun q => q.1 == n) e rs hne]
        cases hqn : query_policy_by_name db n with
        | none => rfl
        | some p =>
          have hpn : p.name = n := by
            have := List.find?_some hqn
            simpa using this
          have hen : e.1 ≠ n := by simpa using hne
          have hpe : ¬p.name = e.1 := by
            rw [hpn]
            exact fun h => hen h.symm
          simp [hpe]

theorem tournament_update_find? (engine : String → List ℚ → Rating)
    (t : Tournament) (names : List String) (samples : List (List ℚ))
    (n : String) :
    (tournament_update engine t names samples).ratings.find?
        (fun e => e.1 == n) =
      (t.ratings.find? (fun e => e.1 == n)).map (fun e =>
        if e.1 ∈ names ∧ e.1 ∉ t.anchors then
          (e.1, engine e.1 (samplesFor names samples e.1))
        else e) := by
  unfold tournament_update
  exact find?_map_pred _ _ (fun x => by split <;> rfl) t.ratings

theorem tournament_update_names (engine : String → List ℚ → Rating)
    (t : Tournament) (names : List String) (samples : List (List ℚ)) :
    (tournament_update engine t names samples).ratings.map (fun e => e.1) =
      t.ratings.map (fun e => e.1) := by
  unfold tournament_update
  rw [List.map_map]
  exact List.map_congr_left (fun e _ => by simp only [Function.comp_apply]; split <;> rfl)

theorem zip_fst_snd {α β : Type} : ∀ l : List (α × β),
    (l.map (fun e => e.1)).zip (l.map (fun e => e.2)) = l
  | [] => rfl
  | e :: t => by
    rw [List.map_cons, List.map_cons, List.zip_cons_cons, zip_fst_snd t]

theorem samplesFor_scores (sc : List (String × List ℚ)) (n : String) :
    samplesFor (sc.map (fun e => e.1)) (sc.map (fun e => e.2)) n =
      scoresGet sc n := by
  unfold samplesFor scoresGet
  rw [zip_fst_snd]

/-- C2: after `update_ranks`: the ledger is empty; the store keeps exactly
its rows (so a ledger name with no row causes no error and no row change);
every ledger name registered with the engine and present in the store has
the engine's freshly recomputed mu/sigma for its aggregated samples
committed to its row; and every name not scored since the last update keeps
its stored mu/sigma, given the store/engine consistency that `add_policy`
establishes and this operation maintains. -/
theorem update_ranks_correct (engine : String → List ℚ → Rating)
    (st : PoolState)
    (hrs : (st.tournament.ratings.map (fun e => e.1)).Nodup) :
    ((update_ranks engine st).scores = []) ∧
    ((update_ranks engine st).database.map (fun p => p.name) =
      st.database.map (fun p => p.name)) ∧
    (∀ n, n ∈ st.scores.map (fun e => e.1) → n ∉ st.tournament.anchors →
      ratingsGet st.tournament.ratings n ≠ none →
      ∀ p, query_policy_by_name st.database n = some p →
        query_policy_by_name (update_ranks engine st).database n =
          some { p with mu := (engine n (scoresGet st.scores n)).mu,
                        sigma := (engine n (scoresGet st.scores n)).sigma }) ∧
    (∀ n, n ∉ st.scores.map (fun e => e.1) →
      (∀ r, ratingsGet st.tournament.ratings n = some r →
        ∀ p, query_policy_by_name st.database n = some p →
          p.mu = r.mu ∧ p.sigma = r.sigma) →
      query_policy_by_name (update_ranks engine st).database n =
        query_policy_by_name st.database n) := by
  have hdb : (update_ranks engine st).database =
      writeback (tournament_update engine st.tournament
        (st.scores.map (fun e => e.1)) (st.scores.map (fun e => e.2))).ratings
        st.database := rfl
  have hnd' : ((tournament_update engine st.tournament
      (st.scores.map (fun e => e.1))
      (st.scores.map (fun e => e.2))).ratings.map (fun e => e.1)).Nodup := by
    rw [tournament_update_names]
    exact hrs
  refine ⟨rfl, by rw [hdb, writeback_names], ?_, ?_⟩
  · intro n hn hanch hreg p hp
    rw [hdb, writeback_query _ st.database n hnd', hp, Option.map_some',
      tournament_update_find?]
    cases hr : st.tournament.ratings.find? (fun e => e.1 == n) with
    | none =>
      exfalso
      apply hreg
      unfold ratingsGet
      rw [hr]
      rfl
    | some e =>
      have he1 : e.1 = n := by
        have := List.find?_some hr
        simpa using this
      have hcond : e.1 ∈ st.scores.map (fun q => q.1) ∧
          e.1 ∉ st.tournament.anchors := by
        rw [he1]
        exact ⟨hn, hanch⟩
      simp only [Option.map_some']
      rw [if_pos hcond]
      rw [he1, samplesFor_scores]
  · intro n hn hsync
    rw [hdb, writeback_query _ st.database n hnd', tournament_update_find?]
    cases hqn : query_policy_by_name st.database n with
    | none => rfl
    | some p =>
      cases hr : st.tournament.ratings.find? (fun e => e.1 == n) with
      | none => simp
      | some e =>
        have he1 : e.1 = n := by
          have := List.find?_some hr
          simpa using this
        have hcond : ¬(e.1 ∈ st.scores.map (fun q => q.1) ∧
            e.1 ∉ st.tournament.anchors) := by
          rw [he1]
          exact fun h => hn h.1
        simp only [Option.map_some']
        rw [if_neg hcond]
        have hget : ratingsGet st.tournament.ratings n = some e.2 := by
          unfold ratingsGet
          rw [hr]
          rfl
        have hs := hsync e.2 hget p hqn
        have hrec : ({ p with mu := e.2.mu, sigma := e.2.sigma } :
            PolicyRecord) = p := by
          cases p
          simp only [PolicyRecord.mk.injEq, and_true, true_and]
          exact ⟨hs.1.symm, hs.2.symm⟩
        simp [hrec]

/-- C2 witness: on the concrete scored state, the theorem's hypotheses hold
and the ledger empties while `X`'s row receives the engine's recomputed
rating. -/
theorem update_ranks_correct_witness :
    ((wStateScored.tournament.ratings.map (fun e => e.1)).Nodup) ∧
    (update_ranks wEngine wStateScored).scores = [] ∧
    query_policy_by_name (update_ranks wEngine wStateScored).database "X" =
      some { wRecord with mu := 7, sigma := 2 } := by
  have h := update_ranks_correct wEngine wStateScored (by decide)
  refine ⟨by decide, h.1, ?_⟩
  have h3 := h.2.2.1 "X" (by decide) (by decide) (by decide) wRecord rfl
  exact h3

/-! ### Deep-copy-on-register: the heap refinement claim -/

/-- C9: `add_policy` takes a value copy before persisting: the stored record
binds a freshly allocated object (a reference distinct from the caller's)
holding the caller's model value at call time, and the snapshot file holds
that value's parameters; mutating the caller's live object afterwards
changes neither the record's object nor the persisted snapshot, and the
registration itself leaves the caller's object untouched. -/
theorem add_policy_heap_copies (h : Heap) (fs : FileSys) (db : Database)
    (path : String) (model_ref : Nat) (name : String) (tenured : Bool)
    (mu sigma : ℚ) (href : model_ref < h.length) :
    (add_policy_heap h fs db path model_ref name tenured mu sigma).2.2.2 ≠
      model_ref ∧
    heapGet (add_policy_heap h fs db path model_ref name tenured mu sigma).1
        (add_policy_heap h fs db path model_ref name tenured mu sigma).2.2.2 =
      heapGet h model_ref ∧
    fsRead (add_policy_heap h fs db path model_ref name tenured mu sigma).2.1
        (path ++ "/" ++ name) = some (heapGet h model_ref).params ∧
    (∀ m' : Model,
      heapGet
        (heapSet (add_policy_heap h fs db path model_ref name tenured mu sigma).1
          model_ref m')
        (add_policy_heap h fs db path model_ref name tenured mu sigma).2.2.2 =
      heapGet h model_ref) ∧
    heapGet (add_policy_heap h fs db path model_ref name tenured mu sigma).1
        model_ref = heapGet h model_ref := by
  have hcopy : (add_policy_heap h fs db path model_ref name tenured mu sigma).1 =
      h ++ [heapGet h model_ref] := by
    unfold add_policy_heap deepcopy
    rfl
  have href' : (add_policy_heap h fs db path model_ref name tenured mu sigma).2.2.2 =
      h.length := rfl
  have hat : heapGet (h ++ [heapGet h model_ref]) h.length = heapGet h model_ref := by
    unfold heapGet
    rw [List.getD_eq_getElem?_getD, List.getElem?_concat_length]
    rfl
  refine ⟨by omega, ?_, ?_, ?_, ?_⟩
  · rw [hcopy, href', hat]
  · have hm : heapGet (h ++ [heapGet h model_ref]) h.length = heapGet h model_ref := hat
    show fsRead (fsWrite fs (path ++ "/" ++ name)
        (heapGet (h ++ [heapGet h model_ref]) h.length).params)
        (path ++ "/" ++ name) = some (heapGet h model_ref).params
    rw [hm]
    unfold fsRead fsWrite
    rw [@List.find?_cons_of_pos _ (fun e => e.1 == path ++ "/" ++ name)
      (path ++ "/" ++ name, (heapGet h model_ref).params) _ (by simp)]
    rfl
  · intro m'
    rw [hcopy, href']
    unfold heapGet heapSet
    rw [List.getD_eq_getElem?_getD,
      List.getElem?_set_ne (by omega),
      List.getElem?_concat_length]
    rfl
  · rw [hcopy]
    unfold heapGet
    rw [List.getD_eq_getElem?_getD, List.getD_eq_getElem?_getD,
      List.getElem?_append_left href]

/-- C9 witness: a concrete one-object heap satisfies the hypothesis and the
conclusions. -/
theorem add_policy_heap_copies_witness :
    (0 < ([wModel] : Heap).length) ∧
    ((add_policy_heap [wModel] [] [] "pool" 0 "X" false 1000 2).2.2.2 ≠ 0 ∧
     heapGet (add_policy_heap [wModel] [] [] "pool" 0 "X" false 1000 2).1
         (add_policy_heap [wModel] [] [] "pool" 0 "X" false 1000 2).2.2.2 =
       heapGet [wModel] 0 ∧
     fsRead (add_policy_heap [wModel] [] [] "pool" 0 "X" false 1000 2).2.1
         ("pool" ++ "/" ++ "X") = some (heapGet [wModel] 0).params ∧
     (∀ m' : Model,
       heapGet
         (heapSet (add_policy_heap [wModel] [] [] "pool" 0 "X" false 1000 2).1
           0 m')
         (add_policy_heap [wModel] [] [] "pool" 0 "X" false 1000 2).2.2.2 =
       heapGet [wModel] 0) ∧
     heapGet (add_policy_heap [wModel] [] [] "pool" 0 "X" false 1000 2).1 0 =
       heapGet [wModel] 0) :=
  ⟨by decide, add_policy_heap_copies [wModel] [] [] "pool" 0 "X" false 1000 2
    (by decide)⟩

/-! ### Construction-order claims for `__init__` -/

theorem map_const_replicate {α β : Type} (b : β) :
    ∀ l : List α, l.map (fun _ => b) = List.replicate l.length b
  | [] => rfl
  | _ :: t => by
    rw [List.map_cons, map_const_replicate b t]
    rfl

theorem load_all_replicate (fs : FileSys) (m : Model) (r r' : PolicyRecord)
    (hload : load_model fs r m = some r') :
    ∀ k : Nat, load_all fs m (List.replicate k r) = some (List.replicate k r')
  | 0 => rfl
  | k + 1 => by
    rw [List.replicate_succ]
    unfold load_all
    rw [hload, load_all_replicate fs m r r' hload k]
    rfl

/-- C5 counterexample: with weights `[2]`, one active policy and batch size
`3`, construction raises the divisibility assert only after the learner has
been registered: the world at raise time already contains the learner's row
and snapshot, so the error is not raised before the other effects of
construction. -/
theorem pool_init_counterexample :
    pool_init emptyWorld 3 wModel "L" [2] 1 "pool" 1000 1000 (100 / 3) [] =
      Except.error ("assert evaluation_batch_size % chunk_size == 0",
        ⟨[new_policy_record wModel ("pool" ++ "/" ++ "L") "L" true 1000 (100 / 3)],
         [(("pool" ++ "/" ++ "L"), [1, 2])]⟩) ∧
    (⟨[new_policy_record wModel ("pool" ++ "/" ++ "L") "L" true 1000 (100 / 3)],
      [(("pool" ++ "/" ++ "L"), [1, 2])]⟩ : World) ≠ emptyWorld := by
  constructor
  · rfl
  · decide

theorem new_policy_record_name (model : Model) (model_path name : String)
    (tenured : Bool) (mu sigma : ℚ) :
    (new_policy_record model model_path name tenured mu sigma).name = name := rfl

/-- C5 amended: the `sample_weights` length check fires before any effect
(the world at raise time is the construction world, untouched); the
divisibility check runs only after the learner has been registered and the
initial rotation performed, so on a fresh world its failure raises with the
learner's row and snapshot already present; in both cases no pool is
produced. -/
theorem pool_init_fail_fast (B : Nat) (learner : Model) (name path : String)
    (ws : List Nat) (n : Nat) (mu anchor_mu sigma : ℚ) (picks : List Nat) :
    (ws.length ≠ n →
      pool_init emptyWorld B learner name ws n path mu anchor_mu sigma picks =
        Except.error ("assert len(sample_weights) == active_policies",
          emptyWorld)) ∧
    (ws.length = n → B % ws.sum ≠ 0 → (∀ i ∈ picks, i < 1) →
      pool_init emptyWorld B learner name ws n path mu anchor_mu sigma picks =
        Except.error ("assert evaluation_batch_size % chunk_size == 0",
          ⟨[new_policy_record learner (path ++ "/" ++ name) name true mu sigma],
           [((path ++ "/" ++ name), learner.params)]⟩)) := by
  constructor
  · intro hne
    unfold pool_init
    rw [if_pos hne]
  · intro hlen hmod hpk
    unfold pool_init
    rw [if_neg (not_not_intro hlen)]
    simp only [add_policy, query_policy_by_name, emptyWorld, List.find?_nil]
    simp only [update_active_policies, add_policy_rest, db_add_policy, fsWrite,
      query_policy_by_name, query_all_policies, Option.getD_some,
      List.nil_append, List.eraseP_nil, List.find?_cons_of_pos, beq_self_eq_true,
      new_policy_record_name]
    have hc : picks.map (fun i =>
        ([new_policy_record learner (path ++ "/" ++ name) name true mu sigma] :
          List PolicyRecord).getD i default) =
        picks.map (fun _ =>
          new_policy_record learner (path ++ "/" ++ name) name true mu sigma) :=
      List.map_congr_left (fun i hi => by
        have h0 : i = 0 := Nat.lt_one_iff.1 (hpk i hi)
        subst h0
        rfl)
    rw [hc, map_const_replicate]
    have hload : load_model [((path ++ "/" ++ name), learner.params)]
        (new_policy_record learner (path ++ "/" ++ name) name true mu sigma)
        learner =
        some (new_policy_record learner (path ++ "/" ++ name) name true mu sigma) := by
      unfold load_model fsRead new_policy_record
      rw [@List.find?_cons_of_pos _ (fun e => e.1 == path ++ "/" ++ name)
        ((path ++ "/" ++ name), learner.params) [] (by simp)]
      rfl
    have hall : load_all [((path ++ "/" ++ name), learner.params)] learner
        (new_policy_record learner (path ++ "/" ++ name) name true mu sigma ::
          List.replicate picks.length
            (new_policy_record learner (path ++ "/" ++ name) name true mu sigma)) =
        some (new_policy_record learner (path ++ "/" ++ name) name true mu sigma ::
          List.replicate picks.length
            (new_policy_record learner (path ++ "/" ++ name) name true mu sigma)) := by
      unfold load_all
      rw [hload, load_all_replicate _ _ _ _ hload picks.length]
    rw [hall]
    simp [hmod, PoolState.world, new_policy_record]

/-- C5 witness: both branches of the amended claim instantiated concretely:
a length mismatch raises with the world untouched, and a divisibility
failure raises with the learner already registered. -/
theorem pool_init_fail_fast_witness :
    (([1, 2] : List Nat).length ≠ 1 ∧
      pool_init emptyWorld 8 wModel "L" [1, 2] 1 "pool" 1000 1000 (100 / 3) [] =
        Except.error ("assert len(sample_weights) == active_policies",
          emptyWorld)) ∧
    (([2] : List Nat).length = 1 ∧ 3 % ([2] : List Nat).sum ≠ 0 ∧
      pool_init emptyWorld 3 wModel "L" [2] 1 "pool" 1000 1000 (100 / 3) [] =
        Except.error ("assert evaluation_batch_size % chunk_size == 0",
          ⟨[new_policy_record wModel ("pool" ++ "/" ++ "L") "L" true 1000 (100 / 3)],
           [(("pool" ++ "/" ++ "L"), [1, 2])]⟩)) :=
  ⟨⟨by decide,
    (pool_init_fail_fast 8 wModel "L" "pool" [1, 2] 1 1000 1000 (100 / 3) []).1
      (by decide)⟩,
   ⟨by decide, by decide,
    (pool_init_fail_fast 3 wModel "L" "pool" [2] 1 1000 1000 (100 / 3) []).2
      (by decide) (by decide) (by decide)⟩⟩

end PufferPool
